import Mathlib

/-!
Verification development for the tgstreamer repository: a shallow embedding
of the streaming relay's pure logic (range parsing, slice transform, remote
alignment), the admission-control counters, the token registry and the MIME
resolver, together with theorems settling the specification's claims.
-/

namespace TgStreamer

/-! ### Model of a JavaScript `Map` / plain-object store

The repository keeps its mutable state in JS `Map`s (rate-limit counters) and
a plain object (`store.entries`).  Both are modelled as association lists
keyed by `String`, in insertion order.  `jset` replaces the first occurrence
in place or appends (as `Map.set` / object assignment does), `jdelete`
removes the first occurrence (as `Map.delete` / `delete obj[k]` does). -/

abbrev JMap (α : Type) := List (String × α)

/-- Lookup, first occurrence wins (JS `Map.get` / `obj[k]`). -/
def jget {α : Type} : JMap α → String → Option α
  | [], _ => none
  | (k', v) :: rest, k => if k' = k then some v else jget rest k

/-- Insert or replace in place (JS `Map.set` / `obj[k] = v`). -/
def jset {α : Type} : JMap α → String → α → JMap α
  | [], k, v => [(k, v)]
  | (k', v') :: rest, k, v =>
      if k' = k then (k, v) :: rest else (k', v') :: jset rest k v

/-- Remove the first occurrence of the key (JS `Map.delete` / `delete obj[k]`). -/
def jdelete {α : Type} : JMap α → String → JMap α
  | [], _ => []
  | (k', v) :: rest, k => if k' = k then rest else (k', v) :: jdelete rest k

/-- The list of keys of the map. -/
def jkeys {α : Type} (m : JMap α) : List String := m.map Prod.fst

/-- Sum of all stored values (for the counter maps). -/
def jsum (m : JMap Int) : Int := (m.map Prod.snd).sum

/-- JS `m.get(k) || 0` on a counter map: `undefined` and `0` both give `0`. -/
def jcount (m : JMap Int) (k : String) : Int := (jget m k).getD 0

/-- JS `m.get(k) || 1` on a counter map: `undefined` and `0` both give `1`. -/
def jgetOr1 (m : JMap Int) (k : String) : Int :=
  match jget m k with
  | none => 1
  | some v => if v = 0 then 1 else v

/-! ### Remote alignment (src/config/constants.ts and the handler)

Constants from `src/config/constants.ts`, and the aligned-offset computation
from `handleStreamRequest` (`alignedStart = Math.floor(start / ALIGN) * ALIGN`,
`skipBytes = start - alignedStart`). -/

def ALIGN_LARGE_FILE : Nat := 1024 * 1024

def ALIGN_SMALL_FILE : Nat := 4 * 1024

def LARGE_FILE_THRESHOLD : Nat := 10 * 1024 * 1024

/-- `const ALIGN = isLargeFile ? ALIGN_LARGE_FILE : ALIGN_SMALL_FILE` where
`isLargeFile = fileSize > LARGE_FILE_THRESHOLD`. -/
def alignOf (fileSize : Nat) : Nat :=
  if fileSize > LARGE_FILE_THRESHOLD then ALIGN_LARGE_FILE else ALIGN_SMALL_FILE

/-- `const alignedStart = Math.floor(start / ALIGN) * ALIGN` (floor division). -/
def alignedStart (fileSize startPos : Nat) : Nat :=
  startPos / alignOf fileSize * alignOf fileSize

/-- `const skipBytes = start - alignedStart`. -/
def skipBytesOf (fileSize startPos : Nat) : Nat :=
  startPos - alignedStart fileSize startPos

/-! ### The slice transform (`sliceTransform` in the request handler)

The handler's `TransformStream` keeps two mutable counters, `skipped` and
`written`, across chunk callbacks.  One callback invocation is modelled as
the pure step `sliceStep` on the state below; a whole run over a chunk
sequence is `sliceRun`.  Bytes are modelled as `Nat`s; `controller.enqueue`
becomes the emitted list (a terminated stream simply emits nothing on later
chunks, exactly as the guard `remaining <= 0` does). -/

structure SliceState where
  skipped : Nat
  written : Nat
deriving DecidableEq, Repr

/-- The limit part of the transform callback: `remaining = chunkSize - written`;
if `remaining <= 0` emit nothing, else clamp the chunk to `remaining` bytes,
add its length to `written` and emit it. -/
def sliceEmit (chunkSize : Nat) (s : SliceState) (chunk : List Nat) :
    List Nat × SliceState :=
  let remaining := chunkSize - s.written
  if remaining = 0 then ([], s)
  else
    let c := if remaining < chunk.length then chunk.take remaining else chunk
    (c, ⟨s.skipped, s.written + c.length⟩)

/-- One invocation of the transform callback: first drop up to
`skipBytes - skipped` leading bytes (the alignment skip), returning early if
the chunk is exhausted, then apply the limit logic `sliceEmit`. -/
def sliceStep (skipBytes chunkSize : Nat) (s : SliceState) (chunk : List Nat) :
    List Nat × SliceState :=
  if s.skipped < skipBytes then
    let toSkip := min (skipBytes - s.skipped) chunk.length
    let c1 := chunk.drop toSkip
    if c1.length = 0 then ([], ⟨s.skipped + toSkip, s.written⟩)
    else sliceEmit chunkSize ⟨s.skipped + toSkip, s.written⟩ c1
  else sliceEmit chunkSize s chunk

/-- Fold of the transform over the chunks in arrival order, concatenating the
emitted output. -/
def sliceRunFrom (skipBytes chunkSize : Nat) : SliceState → List (List Nat) → List Nat
  | _, [] => []
  | s, c :: cs =>
      let r := sliceStep skipBytes chunkSize s c
      r.1 ++ sliceRunFrom skipBytes chunkSize r.2 cs

/-- A whole run of the transform from the initial state (`skipped = 0`,
`written = 0`). -/
def sliceRun (skipBytes chunkSize : Nat) (chunks : List (List Nat)) : List Nat :=
  sliceRunFrom skipBytes chunkSize ⟨0, 0⟩ chunks

/-! ### Range-header parsing (inline in `handleStreamRequest`)

The handler runs `rangeHeader.match(/bytes=(\d*)-(\d*)/)`.  The regex engine
scans start positions left to right; at a position the pattern matches when
the literal `bytes=` is followed by a (possibly empty) maximal digit run,
then a literal `-`, then a second digit run (greedy `\d*` cannot backtrack
into a successful `-` match, so the maximal runs are what is captured). -/

/-- Split a character list into its maximal leading digit run and the rest
(the behaviour of a greedy `\d*`). -/
def digitsSplit : List Char → List Char × List Char
  | [] => ([], [])
  | c :: cs =>
      if c.isDigit then
        let r := digitsSplit cs
        (c :: r.1, r.2)
      else ([], c :: cs)

/-- Try to match `(\d*)-(\d*)` at the very start of the list, returning the
two capture groups. -/
def matchGroupsAt (s : List Char) : Option (List Char × List Char) :=
  let r1 := digitsSplit s
  match r1.2 with
  | '-' :: r2 => some (r1.1, (digitsSplit r2).1)
  | _ => none

/-- Scan for the first position where `bytes=(\d*)-(\d*)` matches, as the JS
regex `match` does, returning the capture groups of the first match. -/
def findBytesMatch : List Char → Option (List Char × List Char)
  | [] => none
  | c :: cs =>
      if List.isPrefixOf ("bytes=".toList) (c :: cs) then
        match matchGroupsAt ((c :: cs).drop 6) with
        | some g => some g
        | none => findBytesMatch cs
      else findBytesMatch cs

/-- `parseInt(ds, 10)` on a non-empty digit string: its decimal value. -/
def natOfDigits (l : List Char) : Nat :=
  l.foldl (fun acc c => acc * 10 + (c.toNat - 48)) 0

/-- JS truthiness of the header: `if (rangeHeader)` is taken exactly when the
header is present and non-empty. -/
def hasRange (rangeHeader : Option String) : Bool :=
  match rangeHeader with
  | none => false
  | some h => h ≠ ""

/-- The serving window computed by the handler:
`start = 0`, `end = fileSize - 1`, overwritten from the capture groups when
the header is present and the regex matches; an empty capture group keeps the
corresponding default (`match[1] ? parseInt(match[1]) : 0`, and likewise for
`match[2]`).  No clamping of `end` is performed. -/
def parseRange (rangeHeader : Option String) (fileSize : Nat) : Nat × Nat :=
  match rangeHeader with
  | none => (0, fileSize - 1)
  | some h =>
      match findBytesMatch h.toList with
      | none => (0, fileSize - 1)
      | some (d1, d2) =>
          (if d1.length = 0 then 0 else natOfDigits d1,
           if d2.length = 0 then fileSize - 1 else natOfDigits d2)

/-! ### Response head (status line and the headers the claims mention) -/

structure ResponseHead where
  status : Nat
  contentLength : Int
  contentRange : Option (Nat × Nat × Nat)
deriving DecidableEq, Repr

/-- The status/headers decision of `handleStreamRequest`: `chunkSize =
end - start + 1` is always the `Content-Length`; when the Range header is
present (JS truthiness) the handler adds `Content-Range: bytes start-end/size`
and writes 206, otherwise it writes 200. -/
def buildResponseHead (rangeHeader : Option String) (fileSize : Nat) : ResponseHead :=
  let se := parseRange rangeHeader fileSize
  let chunkSize : Int := (se.2 : Int) - (se.1 : Int) + 1
  if hasRange rangeHeader then
    { status := 206, contentLength := chunkSize, contentRange := some (se.1, se.2, fileSize) }
  else
    { status := 200, contentLength := chunkSize, contentRange := none }

/-! ### Admission-control counters (src/server/middleware/rate-limit.ts)

The module state is two `Map`s and a global number.  Counter values are
modelled as `Int` (JS numbers), so non-negativity is a real statement. -/

structure RateState where
  activeStreamsPerToken : JMap Int
  totalActiveStreams : Int
  streamsPerIP : JMap Int
deriving DecidableEq, Repr

def emptyRateState : RateState := ⟨[], 0, []⟩

/-- The three concurrency ceilings from the environment configuration. -/
structure RateConfig where
  MAX_CONCURRENT_STREAMS : Int
  MAX_USERS : Int
  MAX_TOTAL_STREAMS : Int

/-- Outcome of `checkRateLimit`; each rejection constructor stands for the
corresponding reason string built in the source. -/
inductive RateLimitResult where
  | allowed
  | rejectedPerFile
  | rejectedMaxUsers
  | rejectedGlobal
deriving DecidableEq, Repr

/-- `checkRateLimit(token, clientIP)`: per-token ceiling first, then the
max-users check (`ipStreams === 0 && activeUsers >= MAX_USERS` where
`activeUsers = streamsPerIP.size`), then the global ceiling. -/
def checkRateLimit (cfg : RateConfig) (st : RateState) (token clientIP : String) :
    RateLimitResult :=
  let currentStreams := jcount st.activeStreamsPerToken token
  if currentStreams ≥ cfg.MAX_CONCURRENT_STREAMS then .rejectedPerFile
  else
    let ipStreams := jcount st.streamsPerIP clientIP
    let activeUsers : Int := (st.streamsPerIP.length : Int)
    if ipStreams = 0 ∧ activeUsers ≥ cfg.MAX_USERS then .rejectedMaxUsers
    else if st.totalActiveStreams ≥ cfg.MAX_TOTAL_STREAMS then .rejectedGlobal
    else .allowed

/-- `incrementStreamCount(token, clientIP)`. -/
def incrementStreamCount (st : RateState) (token clientIP : String) : RateState :=
  let currentStreams := jcount st.activeStreamsPerToken token
  let ipStreams := jcount st.streamsPerIP clientIP
  { activeStreamsPerToken := jset st.activeStreamsPerToken token (currentStreams + 1)
    streamsPerIP := jset st.streamsPerIP clientIP (ipStreams + 1)
    totalActiveStreams := st.totalActiveStreams + 1 }

/-- `decrementStreamCount(token, clientIP)`: an entry that would reach zero is
deleted (`count <= 1`), the global counter is floored at zero
(`Math.max(0, totalActiveStreams - 1)`). -/
def decrementStreamCount (st : RateState) (token clientIP : String) : RateState :=
  let count := jgetOr1 st.activeStreamsPerToken token
  let m1 :=
    if count ≤ 1 then jdelete st.activeStreamsPerToken token
    else jset st.activeStreamsPerToken token (count - 1)
  let ipCount := jgetOr1 st.streamsPerIP clientIP
  let m2 :=
    if ipCount ≤ 1 then jdelete st.streamsPerIP clientIP
    else jset st.streamsPerIP clientIP (ipCount - 1)
  { activeStreamsPerToken := m1
    streamsPerIP := m2
    totalActiveStreams := max 0 (st.totalActiveStreams - 1) }

/-! ### Session cleanup (the `cleanup` closure in `handleStreamRequest`)

Only the parts that touch the admission counters are modelled; clearing the
stall timer, aborting the fetch and logging do not affect them. -/

structure StreamSession where
  cleanedUp : Bool
deriving DecidableEq, Repr

/-- `cleanup(reason)`: a no-op when `cleanedUp` is already set, otherwise it
sets the flag and decrements the counters once. -/
def cleanup (st : RateState) (sess : StreamSession) (token clientIP : String) :
    RateState × StreamSession :=
  if sess.cleanedUp then (st, sess)
  else (decrementStreamCount st token clientIP, ⟨true⟩)

/-- The handler's `catch` block followed by the later `close` event: the catch
block calls `decrementStreamCount` directly, leaving `cleanedUp` at `false`,
so the disconnect-triggered `cleanup` decrements a second time. -/
def setupErrorThenDisconnect (st : RateState) (token clientIP : String) : RateState :=
  let afterCatch := decrementStreamCount st token clientIP
  (cleanup afterCatch ⟨false⟩ token clientIP).1

/-! ### Reachable counter states

The spec mutates the counters only through increment-on-admit and
decrement-on-session-end; `act` is the ghost multiset (as a list) of admitted
sessions `(token, clientIP)` that have not yet ended, so a decrement always
matches one previously admitted session. -/

inductive Reachable : List (String × String) → RateState → Prop
  | init : Reachable [] emptyRateState
  | inc (act : List (String × String)) (st : RateState) (t c : String) :
      Reachable act st → Reachable ((t, c) :: act) (incrementStreamCount st t c)
  | dec (act : List (String × String)) (st : RateState) (t c : String) :
      Reachable act st → (t, c) ∈ act →
      Reachable (act.erase (t, c)) (decrementStreamCount st t c)

/-- A counter map is exact for the per-key count `f`: keys are unique, every
stored value is the key's count and at least `1`, and an absent key has count
`0`. -/
def CounterMapOk (m : JMap Int) (f : String → Nat) : Prop :=
  (jkeys m).Nodup ∧
  (∀ k v, jget m k = some v → v = (f k : Int) ∧ 1 ≤ v) ∧
  (∀ k, jget m k = none → f k = 0)

/-- Number of active sessions for a token: occurrences in the ghost list with
the given first component. -/
def keyCountFst (act : List (String × String)) (k : String) : Nat :=
  act.countP (fun q => q.1 == k)

/-- Number of active sessions for a client identity: occurrences in the ghost
list with the given second component. -/
def keyCountSnd (act : List (String × String)) (k : String) : Nat :=
  act.countP (fun q => q.2 == k)

/-- The full counter invariant tying a reachable state to the ghost session
list: both maps are exact per-key counts, and both sums and the global
counter equal the number of active sessions. -/
def RateInv (act : List (String × String)) (st : RateState) : Prop :=
  CounterMapOk st.activeStreamsPerToken (keyCountFst act) ∧
  CounterMapOk st.streamsPerIP (keyCountSnd act) ∧
  st.totalActiveStreams = (act.length : Int) ∧
  jsum st.activeStreamsPerToken = (act.length : Int) ∧
  jsum st.streamsPerIP = (act.length : Int)

/-! ### Token registry (src/server/utils/file-store.ts)

`generateToken` draws from `Math.random`, so the fresh token is a parameter
here; the claims quantify over distinct token sequences. -/

structure FileEntry where
  fileId : String
  fileName : String
  fileSize : Nat
  mimeType : String
deriving DecidableEq, Repr

structure StoreData where
  entries : JMap FileEntry
  order : List String
deriving DecidableEq, Repr

def emptyStore : StoreData := ⟨[], []⟩

/-- The eviction loop of `registerFile`:
`while (order.length >= MAX) { oldest = order.shift(); delete entries[oldest] }`.
(For `MAX = 0` and an empty order the JS loop never terminates; the model
returns, and every lemma assumes `1 ≤ MAX`, under which that branch is
unreachable.) -/
def evictOldest (maxEntries : Nat) : JMap FileEntry → List String → JMap FileEntry × List String
  | entries, order =>
      if maxEntries ≤ order.length then
        match order with
        | [] => (entries, [])
        | oldest :: rest => evictOldest maxEntries (jdelete entries oldest) rest
      else (entries, order)

/-- `registerFile(entry)` with the freshly generated token passed explicitly:
evict past the capacity, store the entry under the token, append the token to
the insertion order. -/
def registerFile (maxEntries : Nat) (st : StoreData) (token : String) (entry : FileEntry) :
    StoreData :=
  let p := evictOldest maxEntries st.entries st.order
  { entries := jset p.1 token entry, order := p.2 ++ [token] }

/-- `getFileEntry(token)`. -/
def getFileEntry (st : StoreData) (token : String) : Option FileEntry :=
  jget st.entries token

/-- A sequence of registrations, each with its fresh token. -/
def registerAll (maxEntries : Nat) (st : StoreData) (regs : List (String × FileEntry)) :
    StoreData :=
  regs.foldl (fun s p => registerFile maxEntries s p.1 p.2) st

/-! ### MIME resolution (src/server/utils/mime.ts, src/config/constants.ts) -/

def MIME_TYPES : JMap String :=
  [("mp4", "video/mp4"), ("mkv", "video/x-matroska"), ("webm", "video/webm"),
   ("avi", "video/x-msvideo"), ("mov", "video/quicktime"), ("wmv", "video/x-ms-wmv"),
   ("flv", "video/x-flv"), ("m4v", "video/x-m4v"),
   ("mp3", "audio/mpeg"), ("flac", "audio/flac"), ("wav", "audio/wav"),
   ("ogg", "audio/ogg"), ("m4a", "audio/mp4"), ("aac", "audio/aac"),
   ("pdf", "application/pdf"), ("zip", "application/zip"), ("rar", "application/vnd.rar")]

def DEFAULT_MIME_TYPE : String := "application/octet-stream"

/-- JS `String.prototype.split('.')` on the character list: splitting on the
dot, keeping empty components (so the empty string yields `[[]]`, one empty
component, exactly as `''.split('.')` yields `['']`). -/
def splitOnDot : List Char → List (List Char)
  | [] => [[]]
  | c :: cs =>
      let r := splitOnDot cs
      if c = '.' then [] :: r
      else
        match r with
        | [] => [[c]]
        | h :: t => (c :: h) :: t

/-- `fileName.split('.').pop()?.toLowerCase() || ''`: the final dot-separated
component, lowercased (`split` never yields an empty array, and `|| ''` only
maps an empty result to itself). -/
def extOf (fileName : String) : String :=
  String.mk (((splitOnDot fileName.toList).getLast?.getD []).map Char.toLower)

/-- `getMimeType(fileName)`: table lookup on the extension with the default
as fallback (`MIME_TYPES[ext] || DEFAULT_MIME_TYPE`; all table values are
non-empty, so `||` is exactly the `undefined` fallback). -/
def getMimeType (fileName : String) : String :=
  (jget MIME_TYPES (extOf fileName)).getD DEFAULT_MIME_TYPE

/-! ## Helper lemmas -/

/-- One transform invocation, characterized: under the invariant
`skipped ≤ skipBytes` it emits the chunk minus the outstanding skip, clamped
to the outstanding budget, and advances the state accordingly. -/
theorem sliceStep_eq (skipBytes chunkSize : Nat) (s : SliceState) (chunk : List Nat)
    (h : s.skipped ≤ skipBytes) :
    sliceStep skipBytes chunkSize s chunk =
      ((chunk.drop (skipBytes - s.skipped)).take (chunkSize - s.written),
       ⟨min (s.skipped + chunk.length) skipBytes,
        s.written + ((chunk.drop (skipBytes - s.skipped)).take (chunkSize - s.written)).length⟩) := by
  obtain ⟨sk, w⟩ := s
  dsimp only at h ⊢
  simp only [sliceStep, sliceEmit]
  by_cases h1 : sk < skipBytes
  · rw [if_pos h1]
    by_cases h2 : (chunk.drop (min (skipBytes - sk) chunk.length)).length = 0
    · rw [if_pos h2]
      have hlen : chunk.length ≤ skipBytes - sk := by
        have := List.length_drop (min (skipBytes - sk) chunk.length) chunk
        omega
      have hnil : chunk.drop (skipBytes - sk) = [] :=
        List.drop_eq_nil_of_le hlen
      simp only [hnil, List.take_nil, List.length_nil, Nat.add_zero,
        Prod.mk.injEq, SliceState.mk.injEq, true_and, and_true]
      omega
    · rw [if_neg h2]
      have hmin : min (skipBytes - sk) chunk.length = skipBytes - sk := by
        have := List.length_drop (min (skipBytes - sk) chunk.length) chunk
        omega
      rw [hmin]
      by_cases h3 : chunkSize - w = 0
      · rw [if_pos h3, h3]
        simp only [List.take_zero, List.length_nil, Nat.add_zero,
          Prod.mk.injEq, SliceState.mk.injEq, true_and, and_true]
        have := List.length_drop (min (skipBytes - sk) chunk.length) chunk
        omega
      · rw [if_neg h3]
        by_cases h4 : chunkSize - w < (chunk.drop (skipBytes - sk)).length
        · rw [if_pos h4]
          simp only [Prod.mk.injEq, SliceState.mk.injEq, true_and, and_true]
          have := List.length_drop (skipBytes - sk) chunk
          have := List.length_drop (min (skipBytes - sk) chunk.length) chunk
          omega
        · rw [if_neg h4]
          push_neg at h4
          rw [List.take_of_length_le h4]
          simp only [Prod.mk.injEq, SliceState.mk.injEq, true_and, and_true]
          have := List.length_drop (skipBytes - sk) chunk
          have := List.length_drop (min (skipBytes - sk) chunk.length) chunk
          omega
  · rw [if_neg h1]
    have hsk : sk = skipBytes := by omega
    subst hsk
    simp only [Nat.sub_self, List.drop_zero]
    by_cases h3 : chunkSize - w = 0
    · rw [if_pos h3, h3]
      simp only [List.take_zero, List.length_nil, Nat.add_zero,
        Prod.mk.injEq, SliceState.mk.injEq, true_and, and_true]
      omega
    · rw [if_neg h3]
      by_cases h4 : chunkSize - w < chunk.length
      · rw [if_pos h4]
        simp only [Prod.mk.injEq, SliceState.mk.injEq, true_and, and_true]
        omega
      · rw [if_neg h4]
        push_neg at h4
        rw [List.take_of_length_le h4]
        simp only [Prod.mk.injEq, SliceState.mk.injEq, true_and, and_true]
        omega

/-- Folding the transform from any in-invariant state emits exactly the
window of the concatenated input that the outstanding skip and budget
select. -/
theorem sliceRunFrom_eq (skipBytes chunkSize : Nat) (chunks : List (List Nat)) :
    ∀ s : SliceState, s.skipped ≤ skipBytes → s.written ≤ chunkSize →
      sliceRunFrom skipBytes chunkSize s chunks =
        (chunks.flatten.drop (skipBytes - s.skipped)).take (chunkSize - s.written) := by
  induction chunks with
  | nil => intro s _ _; simp [sliceRunFrom]
  | cons c cs ih =>
      intro s hs hw
      obtain ⟨sk, w⟩ := s
      dsimp only at hs hw ⊢
      simp only [sliceRunFrom, sliceStep_eq skipBytes chunkSize ⟨sk, w⟩ c hs]
      have hinv1 : min (sk + c.length) skipBytes ≤ skipBytes := Nat.min_le_right _ _
      have hlen : ((c.drop (skipBytes - sk)).take (chunkSize - w)).length =
          min (chunkSize - w) (c.drop (skipBytes - sk)).length := List.length_take _ _
      have hinv2 : w + ((c.drop (skipBytes - sk)).take (chunkSize - w)).length ≤ chunkSize := by
        rw [hlen]; omega
      rw [ih ⟨min (sk + c.length) skipBytes,
            w + ((c.drop (skipBytes - sk)).take (chunkSize - w)).length⟩ hinv1 hinv2]
      dsimp only
      rw [List.flatten_cons, List.drop_append_eq_append_drop, List.take_append_eq_append_take]
      have hdl := List.length_drop (skipBytes - sk) c
      have h1 : skipBytes - min (sk + c.length) skipBytes = skipBytes - sk - c.length := by
        omega
      have h2 : chunkSize - (w + ((c.drop (skipBytes - sk)).take (chunkSize - w)).length) =
          chunkSize - w - (c.drop (skipBytes - sk)).length := by
        rw [hlen]; omega
      rw [h1, h2]

/-- A full transform run over any chunk sequence emits exactly the
`chunkSize`-byte window of the concatenated input after `skipBytes` bytes. -/
theorem sliceRun_eq (skipBytes chunkSize : Nat) (chunks : List (List Nat)) :
    sliceRun skipBytes chunkSize chunks =
      (chunks.flatten.drop skipBytes).take chunkSize := by
  have := sliceRunFrom_eq skipBytes chunkSize chunks ⟨0, 0⟩ (Nat.zero_le _) (Nat.zero_le _)
  simpa [sliceRun] using this

/-! ## Claim theorems -/

/-- Claim C1: for every object and every serving window `[start, end]` with
`start ≤ end ≤ sizeBytes - 1`, folding the slice transform over any partition
of the object's suffix at the aligned offset emits exactly the bytes
`object[start..end]` (as `(object.drop start).take (end - start + 1)`, of full
length `end - start + 1`), and on any chunk sequence whatsoever the emitted
byte count never exceeds `chunkSize = end - start + 1`. -/
theorem sliceTransform_exact (object : List Nat) (startPos endPos : Nat)
    (chunks : List (List Nat))
    (h1 : startPos ≤ endPos) (h2 : endPos < object.length)
    (hpart : chunks.flatten = object.drop (alignedStart object.length startPos)) :
    sliceRun (skipBytesOf object.length startPos) (endPos - startPos + 1) chunks =
      (object.drop startPos).take (endPos - startPos + 1) ∧
    (sliceRun (skipBytesOf object.length startPos) (endPos - startPos + 1) chunks).length =
      endPos - startPos + 1 ∧
    ∀ chunks2 : List (List Nat),
      (sliceRun (skipBytesOf object.length startPos) (endPos - startPos + 1) chunks2).length ≤
        endPos - startPos + 1 := by
  have halign : alignedStart object.length startPos ≤ startPos :=
    Nat.div_mul_le_self _ _
  have hmain : sliceRun (skipBytesOf object.length startPos) (endPos - startPos + 1) chunks =
      (object.drop startPos).take (endPos - startPos + 1) := by
    rw [sliceRun_eq, hpart, List.drop_drop]
    have : alignedStart object.length startPos + skipBytesOf object.length startPos =
        startPos := by
      unfold skipBytesOf
      omega
    rw [this]
  refine ⟨hmain, ?_, ?_⟩
  · rw [hmain, List.length_take, List.length_drop]
    omega
  · intro chunks2
    rw [sliceRun_eq, List.length_take]
    omega

/-- Witness for C1: a ten-byte object, window `[3, 7]`, small-file alignment
(aligned offset `0`, three skip bytes), a two-chunk partition. -/
theorem sliceTransform_exact_witness :
    sliceRun (skipBytesOf (List.length [10, 11, 12, 13, 14, 15, 16, 17, 18, 19]) 3)
        (7 - 3 + 1) [[10, 11, 12, 13], [14, 15, 16, 17, 18, 19]] =
      (List.drop 3 [10, 11, 12, 13, 14, 15, 16, 17, 18, 19]).take (7 - 3 + 1) :=
  (sliceTransform_exact [10, 11, 12, 13, 14, 15, 16, 17, 18, 19] 3 7
    [[10, 11, 12, 13], [14, 15, 16, 17, 18, 19]]
    (by decide) (by decide) (by decide)).1

/-- Claim C2, counterexample: on a 1000-byte object the suffix form
`bytes=-50` parses to the window `(0, 50)`, not the full object `(0, 999)`
the claim requires, and `bytes=100-5000` keeps `end = 5000`, which is not
clamped to `sizeBytes - 1 = 999`. -/
theorem parseRange_counterexample :
    parseRange (some "bytes=-50") 1000 = (0, 50) ∧ (0, 50) ≠ ((0, 999) : Nat × Nat) ∧
    parseRange (some "bytes=100-5000") 1000 = (100, 5000) ∧
    (100, 5000) ≠ ((100, 999) : Nat × Nat) := by
  refine ⟨by decide, by decide, by decide, by decide⟩

/-- Claim C2 as amended: the serving window is `[start, end]` with both
bounds taken from the regex capture groups as parsed — `end` is not clamped
to `sizeBytes - 1`, and the suffix form `bytes=-N` yields `[0, N]`; the
window defaults to the full object `[0, sizeBytes - 1]` only when the Range
header is absent or the regex does not match. -/
theorem parseRange_characterization (rangeHeader : Option String) (fileSize : Nat) :
    (rangeHeader = none → parseRange rangeHeader fileSize = (0, fileSize - 1)) ∧
    (∀ h, rangeHeader = some h → findBytesMatch h.toList = none →
      parseRange rangeHeader fileSize = (0, fileSize - 1)) ∧
    (∀ h d1 d2, rangeHeader = some h → findBytesMatch h.toList = some (d1, d2) →
      parseRange rangeHeader fileSize =
        (if d1.length = 0 then 0 else natOfDigits d1,
         if d2.length = 0 then fileSize - 1 else natOfDigits d2)) := by
  refine ⟨?_, ?_, ?_⟩
  · intro hn; subst hn; rfl
  · intro h hh hm
    subst hh
    simp only [String.toList] at hm
    simp [parseRange, hm]
  · intro h d1 d2 hh hm
    subst hh
    simp only [String.toList] at hm
    simp [parseRange, hm]

/-- Witness for C2 (amended): an unparseable header on a 1000-byte object
degrades to the full-object window, and `bytes=100-199` parses exactly. -/
theorem parseRange_characterization_witness :
    parseRange (some "unparseable") 1000 = (0, 999) :=
  (parseRange_characterization (some "unparseable") 1000).2.1
    "unparseable" rfl (by decide)

/-- Claim C3, counterexample: a present-but-malformed Range header on a
1000-byte object yields status 206 with a `Content-Range` header (for the
full-object window), where the claim requires status 200 without
`Content-Range`. -/
theorem responseHead_counterexample :
    (buildResponseHead (some "malformed") 1000).status = 206 ∧
    (buildResponseHead (some "malformed") 1000).status ≠ 200 ∧
    (buildResponseHead (some "malformed") 1000).contentRange = some (0, 999, 1000) := by
  refine ⟨by decide, by decide, by decide⟩

/-- Claim C3 as amended: the handler writes status 206 with a
`Content-Range` header if and only if a Range header is present (JS-truthy),
whether or not it parses or denotes a proper sub-range, and otherwise writes
200 without `Content-Range`; `Content-Length` is always
`chunkSize = end - start + 1` for the computed window. -/
theorem responseHead_characterization (rangeHeader : Option String) (fileSize : Nat) :
    ((buildResponseHead rangeHeader fileSize).status = 206 ↔ hasRange rangeHeader = true) ∧
    ((buildResponseHead rangeHeader fileSize).status = 200 ↔ hasRange rangeHeader = false) ∧
    ((buildResponseHead rangeHeader fileSize).contentRange ≠ none ↔
      hasRange rangeHeader = true) ∧
    (buildResponseHead rangeHeader fileSize).contentLength =
      ((parseRange rangeHeader fileSize).2 : Int) -
        ((parseRange rangeHeader fileSize).1 : Int) + 1 := by
  unfold buildResponseHead
  cases hr : hasRange rangeHeader with
  | true => simp [hr]
  | false => simp [hr]

/-- Claim C5: `checkRateLimit` evaluates the three ceilings in the fixed
order per-token, then max-users (client new and distinct-client count at the
ceiling), then global, returning the rejection reason of the first failing
check, and accepts exactly when none fails. -/
theorem checkRateLimit_order (cfg : RateConfig) (st : RateState) (token clientIP : String) :
    (checkRateLimit cfg st token clientIP = .rejectedPerFile ↔
      jcount st.activeStreamsPerToken token ≥ cfg.MAX_CONCURRENT_STREAMS) ∧
    (checkRateLimit cfg st token clientIP = .rejectedMaxUsers ↔
      ¬jcount st.activeStreamsPerToken token ≥ cfg.MAX_CONCURRENT_STREAMS ∧
      (jcount st.streamsPerIP clientIP = 0 ∧
        (st.streamsPerIP.length : Int) ≥ cfg.MAX_USERS)) ∧
    (checkRateLimit cfg st token clientIP = .rejectedGlobal ↔
      ¬jcount st.activeStreamsPerToken token ≥ cfg.MAX_CONCURRENT_STREAMS ∧
      ¬(jcount st.streamsPerIP clientIP = 0 ∧
        (st.streamsPerIP.length : Int) ≥ cfg.MAX_USERS) ∧
      st.totalActiveStreams ≥ cfg.MAX_TOTAL_STREAMS) ∧
    (checkRateLimit cfg st token clientIP = .allowed ↔
      ¬jcount st.activeStreamsPerToken token ≥ cfg.MAX_CONCURRENT_STREAMS ∧
      ¬(jcount st.streamsPerIP clientIP = 0 ∧
        (st.streamsPerIP.length : Int) ≥ cfg.MAX_USERS) ∧
      ¬st.totalActiveStreams ≥ cfg.MAX_TOTAL_STREAMS) := by
  unfold checkRateLimit
  by_cases hA : jcount st.activeStreamsPerToken token ≥ cfg.MAX_CONCURRENT_STREAMS
  · simp only [if_pos hA]
    simp [hA]
  · simp only [if_neg hA]
    by_cases hB : jcount st.streamsPerIP clientIP = 0 ∧
        (st.streamsPerIP.length : Int) ≥ cfg.MAX_USERS
    · simp only [if_pos hB]
      simp [hA, hB]
    · simp only [if_neg hB]
      by_cases hC : st.totalActiveStreams ≥ cfg.MAX_TOTAL_STREAMS
      · simp only [if_pos hC]
        simp [hA, hB, hC]
      · simp only [if_neg hC]
        simp [hA, hB, hC]

/-- Claim C7: for a 20 MiB object (above the 10 MiB threshold, so 1 MiB
alignment) and requested start 1,500,000 the remote-aligned offset is
1,048,576 and the skip is 451,424; in general the aligned offset is
`floor(start / alignment) * alignment`, the skip is the difference, and the
alignment is 1 MiB for sizes above the threshold and 4 KiB otherwise. -/
theorem alignment_computation :
    alignedStart (20 * 1024 * 1024) 1500000 = 1500000 / 1048576 * 1048576 ∧
    alignedStart (20 * 1024 * 1024) 1500000 = 1048576 ∧
    skipBytesOf (20 * 1024 * 1024) 1500000 = 1500000 - 1048576 ∧
    skipBytesOf (20 * 1024 * 1024) 1500000 = 451424 ∧
    (∀ fileSize startPos,
      alignedStart fileSize startPos = startPos / alignOf fileSize * alignOf fileSize ∧
      skipBytesOf fileSize startPos = startPos - alignedStart fileSize startPos) ∧
    (∀ fileSize,
      alignOf fileSize =
        if fileSize > 10 * 1024 * 1024 then 1024 * 1024 else 4 * 1024) := by
  refine ⟨by decide, by decide, by decide, by decide, fun _ _ => ⟨rfl, rfl⟩, fun _ => rfl⟩

/-- Claim C9: the MIME resolver is total; it returns the table entry for the
lowercased final dot-separated component when that is in the mapping and the
default `application/octet-stream` otherwise — including an unknown
extension, a name without a dot, and the empty string. -/
theorem getMimeType_total (fileName : String) :
    (∀ mt, jget MIME_TYPES (extOf fileName) = some mt → getMimeType fileName = mt) ∧
    (jget MIME_TYPES (extOf fileName) = none →
      getMimeType fileName = DEFAULT_MIME_TYPE) ∧
    getMimeType "Movie.MKV" = "video/x-matroska" ∧
    getMimeType "archive.tar.gz" = DEFAULT_MIME_TYPE ∧
    getMimeType "README" = DEFAULT_MIME_TYPE ∧
    getMimeType "" = DEFAULT_MIME_TYPE := by
  refine ⟨?_, ?_, by decide, by decide, by decide, by decide⟩
  · intro mt hmt; unfold getMimeType; rw [hmt]; rfl
  · intro hn; unfold getMimeType; rw [hn]; rfl

/-- Witness for C9: the table case at a concrete file name with an
upper-case extension. -/
theorem getMimeType_total_witness : getMimeType "clip.MP4" = "video/mp4" :=
  (getMimeType_total "clip.MP4").1 "video/mp4" (by decide)

/-- Claim C4 (demonstration of the code bug): `cleanup` itself is idempotent
— a second invocation changes nothing — but the handler's `catch` block
releases the counters directly without marking the session cleaned up, so a
setup error followed by the disconnect-triggered `cleanup` releases twice:
with two admitted sessions sharing token `t` and one of them ending through
that path, the global count drops to 0 (exactly-once release would leave 1)
and the per-token entry for `t` disappears although a session is still
active. -/
theorem setupError_double_release :
    (∀ (st : RateState) (sess : StreamSession) (token clientIP : String),
      cleanup (cleanup st sess token clientIP).1 (cleanup st sess token clientIP).2
          token clientIP =
        cleanup st sess token clientIP) ∧
    (setupErrorThenDisconnect
        (incrementStreamCount (incrementStreamCount emptyRateState "t" "a") "t" "b")
        "t" "a").totalActiveStreams = 0 ∧
    jget (setupErrorThenDisconnect
        (incrementStreamCount (incrementStreamCount emptyRateState "t" "a") "t" "b")
        "t" "a").activeStreamsPerToken "t" = none := by
  refine ⟨?_, by decide, by decide⟩
  intro st sess token clientIP
  obtain ⟨b⟩ := sess
  cases b <;> simp [cleanup]


/-! ### Association-list map lemmas -/

theorem jget_cons {α : Type} (a : String) (b : α) (rest : JMap α) (k : String) :
    jget ((a, b) :: rest) k = if a = k then some b else jget rest k := rfl

theorem jkeys_cons {α : Type} (a : String) (b : α) (rest : JMap α) :
    jkeys ((a, b) :: rest) = a :: jkeys rest := rfl

theorem jset_cons {α : Type} (a : String) (b : α) (rest : JMap α) (k : String) (v : α) :
    jset ((a, b) :: rest) k v =
      if a = k then (k, v) :: rest else (a, b) :: jset rest k v := rfl

theorem jdelete_cons {α : Type} (a : String) (b : α) (rest : JMap α) (k : String) :
    jdelete ((a, b) :: rest) k =
      if a = k then rest else (a, b) :: jdelete rest k := rfl

theorem jsum_cons (a : String) (b : Int) (rest : JMap Int) :
    jsum ((a, b) :: rest) = b + jsum rest := by
  simp [jsum]

theorem jcount_cons_self (a : String) (b : Int) (rest : JMap Int) :
    jcount ((a, b) :: rest) a = b := by
  simp [jcount, jget_cons]

theorem jcount_cons_ne (a : String) (b : Int) (rest : JMap Int) (k : String)
    (h : a ≠ k) : jcount ((a, b) :: rest) k = jcount rest k := by
  simp [jcount, jget_cons, h]

theorem jget_jset_self {α : Type} (m : JMap α) (k : String) (v : α) :
    jget (jset m k v) k = some v := by
  induction m with
  | nil => simp [jget, jset]
  | cons p rest ih =>
      obtain ⟨a, b⟩ := p
      rw [jset_cons]
      by_cases hak : a = k
      · rw [if_pos hak, jget_cons, if_pos rfl]
      · rw [if_neg hak, jget_cons, if_neg hak]
        exact ih

theorem jget_jset_ne {α : Type} (m : JMap α) (k k' : String) (v : α) (h : k' ≠ k) :
    jget (jset m k v) k' = jget m k' := by
  have hk : k ≠ k' := Ne.symm h
  induction m with
  | nil =>
      show jget [(k, v)] k' = none
      rw [jget_cons, if_neg hk]
      rfl
  | cons p rest ih =>
      obtain ⟨a, b⟩ := p
      rw [jset_cons]
      by_cases hak : a = k
      · subst hak
        rw [if_pos rfl, jget_cons, jget_cons, if_neg hk, if_neg hk]
      · rw [if_neg hak, jget_cons, jget_cons]
        by_cases hak' : a = k'
        · rw [if_pos hak', if_pos hak']
        · rw [if_neg hak', if_neg hak']
          exact ih

theorem jget_jdelete_ne {α : Type} (m : JMap α) (k k' : String) (h : k' ≠ k) :
    jget (jdelete m k) k' = jget m k' := by
  induction m with
  | nil => rfl
  | cons p rest ih =>
      obtain ⟨a, b⟩ := p
      rw [jdelete_cons]
      by_cases hak : a = k
      · subst hak
        rw [if_pos rfl, jget_cons, if_neg (Ne.symm h)]
      · rw [if_neg hak, jget_cons, jget_cons]
        by_cases hak' : a = k'
        · rw [if_pos hak', if_pos hak']
        · rw [if_neg hak', if_neg hak']
          exact ih

theorem jget_eq_none_iff_not_mem {α : Type} (m : JMap α) (k : String) :
    jget m k = none ↔ k ∉ jkeys m := by
  induction m with
  | nil => simp [jget, jkeys]
  | cons p rest ih =>
      obtain ⟨a, b⟩ := p
      rw [jget_cons, jkeys_cons]
      by_cases hak : a = k
      · subst hak
        simp
      · rw [if_neg hak, List.mem_cons, ih]
        have hk : ¬k = a := fun hc => hak hc.symm
        simp [hk]

theorem jget_jdelete_self {α : Type} (m : JMap α) (k : String)
    (h : (jkeys m).Nodup) : jget (jdelete m k) k = none := by
  induction m with
  | nil => rfl
  | cons p rest ih =>
      obtain ⟨a, b⟩ := p
      rw [jkeys_cons, List.nodup_cons] at h
      rw [jdelete_cons]
      by_cases hak : a = k
      · subst hak
        rw [if_pos rfl]
        exact (jget_eq_none_iff_not_mem rest a).2 h.1
      · rw [if_neg hak, jget_cons, if_neg hak]
        exact ih h.2

theorem jkeys_jset {α : Type} (m : JMap α) (k : String) (v : α) :
    jkeys (jset m k v) = if k ∈ jkeys m then jkeys m else jkeys m ++ [k] := by
  induction m with
  | nil => simp [jset, jkeys]
  | cons p rest ih =>
      obtain ⟨a, b⟩ := p
      rw [jset_cons, jkeys_cons]
      by_cases hak : a = k
      · subst hak
        rw [if_pos rfl, jkeys_cons, if_pos (List.mem_cons_self a (jkeys rest))]
      · rw [if_neg hak, jkeys_cons, ih]
        have hk : ¬k = a := fun hc => hak hc.symm
        by_cases hmem : k ∈ jkeys rest
        · rw [if_pos hmem,
            if_pos (show k ∈ a :: jkeys rest from List.mem_cons.2 (Or.inr hmem))]
        · rw [if_neg hmem,
            if_neg (show k ∉ a :: jkeys rest from by simp [hk, hmem]),
            List.cons_append]

theorem mem_jkeys_jset {α : Type} (m : JMap α) (k k' : String) (v : α) :
    k' ∈ jkeys (jset m k v) ↔ k' ∈ jkeys m ∨ k' = k := by
  rw [jkeys_jset]
  by_cases hmem : k ∈ jkeys m
  · rw [if_pos hmem]
    constructor
    · exact Or.inl
    · rintro (h | rfl)
      · exact h
      · exact hmem
  · rw [if_neg hmem]
    simp

theorem jkeys_jset_nodup {α : Type} (m : JMap α) (k : String) (v : α)
    (h : (jkeys m).Nodup) : (jkeys (jset m k v)).Nodup := by
  rw [jkeys_jset]
  by_cases hmem : k ∈ jkeys m
  · rw [if_pos hmem]; exact h
  · rw [if_neg hmem]
    refine List.Nodup.append h (List.nodup_singleton k) ?_
    intro a ha hb
    rw [List.mem_singleton] at hb
    subst hb
    exact hmem ha

theorem jdelete_sublist {α : Type} (m : JMap α) (k : String) :
    List.Sublist (jdelete m k) m := by
  induction m with
  | nil => exact List.Sublist.refl _
  | cons p rest ih =>
      obtain ⟨a, b⟩ := p
      rw [jdelete_cons]
      by_cases hak : a = k
      · rw [if_pos hak]
        exact List.sublist_cons_self _ _
      · rw [if_neg hak]
        exact List.Sublist.cons₂ _ ih

theorem jkeys_jdelete_nodup {α : Type} (m : JMap α) (k : String)
    (h : (jkeys m).Nodup) : (jkeys (jdelete m k)).Nodup :=
  ((jdelete_sublist m k).map Prod.fst).nodup h

theorem mem_jkeys_jdelete {α : Type} (m : JMap α) (k k' : String) :
    k' ∈ jkeys (jdelete m k) → k' ∈ jkeys m :=
  fun h => ((jdelete_sublist m k).map Prod.fst).mem h

theorem jget_of_mem {α : Type} (m : JMap α) (p : String × α)
    (hm : p ∈ m) (h : (jkeys m).Nodup) : jget m p.1 = some p.2 := by
  induction m with
  | nil => simp at hm
  | cons q rest ih =>
      obtain ⟨a, b⟩ := q
      rw [jkeys_cons, List.nodup_cons] at h
      rcases List.mem_cons.1 hm with hq | hq
      · subst hq
        rw [jget_cons, if_pos rfl]
      · have hne : a ≠ p.1 := by
          intro hc
          exact h.1 (hc ▸ List.mem_map_of_mem Prod.fst hq)
        rw [jget_cons, if_neg hne]
        exact ih hq h.2

theorem jsum_jset (m : JMap Int) (k : String) (v : Int) :
    jsum (jset m k v) = jsum m - jcount m k + v := by
  induction m with
  | nil => simp [jsum, jset, jcount, jget]
  | cons p rest ih =>
      obtain ⟨a, b⟩ := p
      rw [jset_cons]
      by_cases hak : a = k
      · subst hak
        rw [if_pos rfl, jsum_cons, jsum_cons, jcount_cons_self]
        ring
      · rw [if_neg hak, jsum_cons, jsum_cons, jcount_cons_ne a b rest k hak, ih]
        ring

theorem jsum_jdelete (m : JMap Int) (k : String) :
    jsum (jdelete m k) = jsum m - jcount m k := by
  induction m with
  | nil => simp [jsum, jdelete, jcount, jget]
  | cons p rest ih =>
      obtain ⟨a, b⟩ := p
      rw [jdelete_cons]
      by_cases hak : a = k
      · subst hak
        rw [jsum_cons, jcount_cons_self, if_pos rfl]
        ring
      · rw [if_neg hak, jsum_cons, jsum_cons, jcount_cons_ne a b rest k hak, ih]
        ring

/-! ### Counter-invariant lemmas -/

theorem countP_erase_add (p : String × String → Bool) (x : String × String)
    (l : List (String × String)) (h : x ∈ l) :
    (l.erase x).countP p + (if p x then 1 else 0) = l.countP p := by
  induction l with
  | nil => simp at h
  | cons a rest ih =>
      by_cases hax : a = x
      · subst hax
        rw [List.erase_cons_head, List.countP_cons]
      · have hx : x ∈ rest := by
          rcases List.mem_cons.1 h with h1 | h2
          · exact absurd h1.symm hax
          · exact h2
        rw [List.erase_cons_tail (not_beq_of_ne hax), List.countP_cons,
          List.countP_cons]
        have := ih hx
        omega

theorem keyCountFst_cons (t c : String) (act : List (String × String)) (k : String) :
    keyCountFst ((t, c) :: act) k = keyCountFst act k + if t = k then 1 else 0 := by
  unfold keyCountFst
  rw [List.countP_cons]
  by_cases h : t = k <;> simp [h]

theorem keyCountSnd_cons (t c : String) (act : List (String × String)) (k : String) :
    keyCountSnd ((t, c) :: act) k = keyCountSnd act k + if c = k then 1 else 0 := by
  unfold keyCountSnd
  rw [List.countP_cons]
  by_cases h : c = k <;> simp [h]

theorem keyCountFst_erase (x : String × String) (act : List (String × String))
    (k : String) (h : x ∈ act) :
    keyCountFst (act.erase x) k + (if x.1 = k then 1 else 0) = keyCountFst act k := by
  have := countP_erase_add (fun q => q.1 == k) x act h
  unfold keyCountFst
  by_cases hx : x.1 = k <;> simpa [hx] using this

theorem keyCountSnd_erase (x : String × String) (act : List (String × String))
    (k : String) (h : x ∈ act) :
    keyCountSnd (act.erase x) k + (if x.2 = k then 1 else 0) = keyCountSnd act k := by
  have := countP_erase_add (fun q => q.2 == k) x act h
  unfold keyCountSnd
  by_cases hx : x.2 = k <;> simpa [hx] using this

theorem keyCountFst_pos (act : List (String × String)) (x : String × String)
    (h : x ∈ act) : 1 ≤ keyCountFst act x.1 := by
  unfold keyCountFst
  refine Nat.succ_le_of_lt (List.countP_pos_iff.2 ⟨x, h, ?_⟩)
  simp

theorem keyCountSnd_pos (act : List (String × String)) (x : String × String)
    (h : x ∈ act) : 1 ≤ keyCountSnd act x.2 := by
  unfold keyCountSnd
  refine Nat.succ_le_of_lt (List.countP_pos_iff.2 ⟨x, h, ?_⟩)
  simp

theorem counterMapOk_congr (m : JMap Int) (f g : String → Nat)
    (hm : CounterMapOk m f) (hfg : ∀ k, f k = g k) : CounterMapOk m g := by
  obtain ⟨h1, h2, h3⟩ := hm
  exact ⟨h1, fun k v hv => (hfg k) ▸ h2 k v hv, fun k hv => (hfg k) ▸ h3 k hv⟩

theorem counterMap_jcount (m : JMap Int) (f : String → Nat) (k : String)
    (hm : CounterMapOk m f) : jcount m k = (f k : Int) := by
  obtain ⟨-, h2, h3⟩ := hm
  unfold jcount
  cases hj : jget m k with
  | none => simp [h3 k hj]
  | some v => simp [(h2 k v hj).1]

theorem counterMap_jgetOr1 (m : JMap Int) (f : String → Nat) (k : String)
    (hm : CounterMapOk m f) (hf : 1 ≤ f k) : jgetOr1 m k = (f k : Int) := by
  obtain ⟨-, h2, h3⟩ := hm
  cases hj : jget m k with
  | none => exact absurd (h3 k hj) (by omega)
  | some v =>
      obtain ⟨hv, hv1⟩ := h2 k v hj
      unfold jgetOr1
      simp only [hj]
      rw [if_neg (by omega : ¬v = 0)]
      exact hv

theorem counterMap_inc (m : JMap Int) (f : String → Nat) (t : String)
    (hm : CounterMapOk m f) :
    CounterMapOk (jset m t (jcount m t + 1))
      (fun k => f k + if t = k then 1 else 0) := by
  have hcnt : jcount m t = (f t : Int) := counterMap_jcount m f t hm
  obtain ⟨hnd, hsome, hnone⟩ := hm
  refine ⟨jkeys_jset_nodup m t _ hnd, ?_, ?_⟩
  · intro k v hv
    dsimp only
    by_cases hk : k = t
    · subst hk
      rw [jget_jset_self] at hv
      injection hv with hvv
      rw [← hvv, hcnt, if_pos rfl]
      constructor
      · push_cast
        ring
      · have : (0 : Int) ≤ (f k : Int) := Int.ofNat_nonneg _
        omega
    · rw [jget_jset_ne m t k _ hk] at hv
      obtain ⟨h1, h2⟩ := hsome k v hv
      have htk : ¬t = k := fun hc => hk hc.symm
      rw [if_neg htk]
      exact ⟨by simpa using h1, h2⟩
  · intro k hk
    dsimp only
    by_cases hkt : k = t
    · subst hkt
      rw [jget_jset_self] at hk
      exact absurd hk (by simp)
    · rw [jget_jset_ne m t k _ hkt] at hk
      have htk : ¬t = k := fun hc => hkt hc.symm
      rw [if_neg htk]
      simpa using hnone k hk

theorem counterMap_dec (m : JMap Int) (f : String → Nat) (t : String)
    (hm : CounterMapOk m f) (hf : 1 ≤ f t) :
    CounterMapOk
      (if jgetOr1 m t ≤ 1 then jdelete m t else jset m t (jgetOr1 m t - 1))
      (fun k => f k - if t = k then 1 else 0) := by
  have hv1 : jgetOr1 m t = (f t : Int) := counterMap_jgetOr1 m f t hm hf
  obtain ⟨hnd, hsome, hnone⟩ := hm
  by_cases hone : f t = 1
  · rw [if_pos (by rw [hv1, hone]; norm_num)]
    refine ⟨jkeys_jdelete_nodup m t hnd, ?_, ?_⟩
    · intro k v hv
      dsimp only
      by_cases hk : k = t
      · subst hk
        rw [jget_jdelete_self m k hnd] at hv
        exact absurd hv (by simp)
      · rw [jget_jdelete_ne m t k hk] at hv
        obtain ⟨h1, h2⟩ := hsome k v hv
        have htk : ¬t = k := fun hc => hk hc.symm
        rw [if_neg htk]
        exact ⟨by simpa using h1, h2⟩
    · intro k hk
      dsimp only
      by_cases hkt : k = t
      · subst hkt
        rw [if_pos rfl]
        omega
      · rw [jget_jdelete_ne m t k hkt] at hk
        have htk : ¬t = k := fun hc => hkt hc.symm
        rw [if_neg htk]
        simpa using hnone k hk
  · have hge2 : 2 ≤ f t := by omega
    rw [if_neg (by rw [hv1]; omega)]
    refine ⟨jkeys_jset_nodup m t _ hnd, ?_, ?_⟩
    · intro k v hv
      dsimp only
      by_cases hk : k = t
      · subst hk
        rw [jget_jset_self] at hv
        injection hv with hvv
        rw [← hvv, hv1, if_pos rfl]
        constructor
        · omega
        · omega
      · rw [jget_jset_ne m t k _ hk] at hv
        obtain ⟨h1, h2⟩ := hsome k v hv
        have htk : ¬t = k := fun hc => hk hc.symm
        rw [if_neg htk]
        exact ⟨by simpa using h1, h2⟩
    · intro k hk
      dsimp only
      by_cases hkt : k = t
      · subst hkt
        rw [jget_jset_self] at hk
        exact absurd hk (by simp)
      · rw [jget_jset_ne m t k _ hkt] at hk
        have htk : ¬t = k := fun hc => hkt hc.symm
        rw [if_neg htk]
        simpa using hnone k hk

theorem reachable_inv {act : List (String × String)} {st : RateState}
    (h : Reachable act st) : RateInv act st := by
  induction h with
  | init =>
      refine ⟨⟨List.nodup_nil, ?_, ?_⟩, ⟨List.nodup_nil, ?_, ?_⟩, rfl, rfl, rfl⟩
      · intro k v hv; exact absurd hv (by simp [jget])
      · intro k _; rfl
      · intro k v hv; exact absurd hv (by simp [jget])
      · intro k _; rfl
  | inc act st t c hr ih =>
      obtain ⟨h1, h2, h3, h4, h5⟩ := ih
      have htok : jcount st.activeStreamsPerToken t = (keyCountFst act t : Int) :=
        counterMap_jcount _ _ t h1
      have hip : jcount st.streamsPerIP c = (keyCountSnd act c : Int) :=
        counterMap_jcount _ _ c h2
      refine ⟨?_, ?_, ?_, ?_, ?_⟩
      · refine counterMapOk_congr _ _ _ (counterMap_inc _ _ t h1) ?_
        intro k
        rw [keyCountFst_cons]
      · refine counterMapOk_congr _ _ _ (counterMap_inc _ _ c h2) ?_
        intro k
        rw [keyCountSnd_cons]
      · show st.totalActiveStreams + 1 = _
        rw [h3, List.length_cons]
        push_cast
        ring
      · show jsum (jset st.activeStreamsPerToken t (jcount st.activeStreamsPerToken t + 1)) = _
        rw [jsum_jset, h4, List.length_cons]
        push_cast
        ring
      · show jsum (jset st.streamsPerIP c (jcount st.streamsPerIP c + 1)) = _
        rw [jsum_jset, h5, List.length_cons]
        push_cast
        ring
  | dec act st t c hr hmem ih =>
      obtain ⟨h1, h2, h3, h4, h5⟩ := ih
      have hft : 1 ≤ keyCountFst act t := keyCountFst_pos act (t, c) hmem
      have hfc : 1 ≤ keyCountSnd act c := keyCountSnd_pos act (t, c) hmem
      have htok : jgetOr1 st.activeStreamsPerToken t = (keyCountFst act t : Int) :=
        counterMap_jgetOr1 _ _ t h1 hft
      have hip : jgetOr1 st.streamsPerIP c = (keyCountSnd act c : Int) :=
        counterMap_jgetOr1 _ _ c h2 hfc
      have hcntTok : jcount st.activeStreamsPerToken t = (keyCountFst act t : Int) :=
        counterMap_jcount _ _ t h1
      have hcntIp : jcount st.streamsPerIP c = (keyCountSnd act c : Int) :=
        counterMap_jcount _ _ c h2
      have hlen : (act.erase (t, c)).length = act.length - 1 :=
        List.length_erase_of_mem hmem
      have hlen1 : 1 ≤ act.length := List.length_pos.2 (List.ne_nil_of_mem hmem)
      refine ⟨?_, ?_, ?_, ?_, ?_⟩
      · refine counterMapOk_congr _ _ _ (counterMap_dec _ _ t h1 hft) ?_
        intro k
        have := keyCountFst_erase (t, c) act k hmem
        by_cases hk : t = k
        · subst hk; simp at this ⊢; omega
        · simp [hk] at this ⊢; omega
      · refine counterMapOk_congr _ _ _ (counterMap_dec _ _ c h2 hfc) ?_
        intro k
        have := keyCountSnd_erase (t, c) act k hmem
        by_cases hk : c = k
        · subst hk; simp at this ⊢; omega
        · simp [hk] at this ⊢; omega
      · show max 0 (st.totalActiveStreams - 1) = _
        rw [h3, hlen]
        omega
      · show jsum (if jgetOr1 st.activeStreamsPerToken t ≤ 1
            then jdelete st.activeStreamsPerToken t
            else jset st.activeStreamsPerToken t (jgetOr1 st.activeStreamsPerToken t - 1)) = _
        rw [hlen]
        by_cases hd : jgetOr1 st.activeStreamsPerToken t ≤ 1
        · rw [if_pos hd, jsum_jdelete, h4, hcntTok]
          rw [htok] at hd
          omega
        · rw [if_neg hd, jsum_jset, h4, hcntTok, htok]
          omega
      · show jsum (if jgetOr1 st.streamsPerIP c ≤ 1
            then jdelete st.streamsPerIP c
            else jset st.streamsPerIP c (jgetOr1 st.streamsPerIP c - 1)) = _
        rw [hlen]
        by_cases hd : jgetOr1 st.streamsPerIP c ≤ 1
        · rw [if_pos hd, jsum_jdelete, h5, hcntIp]
          rw [hip] at hd
          omega
        · rw [if_neg hd, jsum_jset, h5, hcntIp, hip]
          omega

/-- Claim C8: under the increment-on-admit / decrement-on-session-end
protocol (each decrement ends one previously admitted session), all counters
remain non-negative, and the per-token counts and the per-client counts each
sum to the global active-stream count. -/
theorem counters_sum_invariant (act : List (String × String)) (st : RateState)
    (h : Reachable act st) :
    0 ≤ st.totalActiveStreams ∧
    (∀ p ∈ st.activeStreamsPerToken, 0 ≤ p.2) ∧
    (∀ p ∈ st.streamsPerIP, 0 ≤ p.2) ∧
    jsum st.activeStreamsPerToken = st.totalActiveStreams ∧
    jsum st.streamsPerIP = st.totalActiveStreams := by
  obtain ⟨⟨hnd1, hsome1, -⟩, ⟨hnd2, hsome2, -⟩, h3, h4, h5⟩ := reachable_inv h
  refine ⟨?_, ?_, ?_, ?_, ?_⟩
  · rw [h3]
    exact Int.ofNat_nonneg _
  · intro p hp
    have := (hsome1 p.1 p.2 (jget_of_mem _ p hp hnd1)).2
    omega
  · intro p hp
    have := (hsome2 p.1 p.2 (jget_of_mem _ p hp hnd2)).2
    omega
  · rw [h4, h3]
  · rw [h5, h3]

/-- Witness for C8: one admitted session on the empty state. -/
theorem counters_sum_invariant_witness :
    jsum (incrementStreamCount emptyRateState "t" "c").streamsPerIP =
      (incrementStreamCount emptyRateState "t" "c").totalActiveStreams :=
  (counters_sum_invariant [("t", "c")] _
    (Reachable.inc [] emptyRateState "t" "c" Reachable.init)).2.2.2.2

/-- Claim C10: in every state reachable by the admit/end protocol, every
value stored in the per-token and per-client maps is at least 1 (entries that
would reach zero are deleted), so the size of the per-client map — the
quantity the max-users check compares against the limit — equals the number
of distinct client identities with at least one active stream. -/
theorem counterMaps_entry_min_one (act : List (String × String)) (st : RateState)
    (h : Reachable act st) :
    (∀ p ∈ st.activeStreamsPerToken, 1 ≤ p.2) ∧
    (∀ p ∈ st.streamsPerIP, 1 ≤ p.2) ∧
    st.streamsPerIP.length = ((act.map Prod.snd).dedup).length := by
  obtain ⟨⟨hnd1, hsome1, -⟩, ⟨hnd2, hsome2, hnone2⟩, -, -, -⟩ := reachable_inv h
  refine ⟨?_, ?_, ?_⟩
  · intro p hp
    exact (hsome1 p.1 p.2 (jget_of_mem _ p hp hnd1)).2
  · intro p hp
    exact (hsome2 p.1 p.2 (jget_of_mem _ p hp hnd2)).2
  · have hmem : ∀ k, k ∈ jkeys st.streamsPerIP ↔ k ∈ (act.map Prod.snd).dedup := by
      intro k
      rw [List.mem_dedup, List.mem_map]
      constructor
      · intro hk
        cases hj : jget st.streamsPerIP k with
        | none => exact absurd hk ((jget_eq_none_iff_not_mem _ k).1 hj)
        | some v =>
            obtain ⟨hv, hv1⟩ := hsome2 k v hj
            have hpos : 0 < keyCountSnd act k := by omega
            obtain ⟨q, hq, hqk⟩ := List.countP_pos_iff.1 hpos
            exact ⟨q, hq, by simpa using hqk⟩
      · rintro ⟨q, hq, rfl⟩
        have h1 : 1 ≤ keyCountSnd act q.2 := keyCountSnd_pos act q hq
        by_contra hk
        have hn := (jget_eq_none_iff_not_mem _ q.2).2 hk
        have := hnone2 q.2 hn
        omega
    have hperm := (List.perm_ext_iff_of_nodup hnd2 (List.nodup_dedup _)).2 hmem
    have hlen := hperm.length_eq
    simpa [jkeys] using hlen

/-- Witness for C10: one admitted session on the empty state. -/
theorem counterMaps_entry_min_one_witness :
    (incrementStreamCount emptyRateState "t" "c").streamsPerIP.length =
      (([("t", "c")].map Prod.snd).dedup).length :=
  (counterMaps_entry_min_one [("t", "c")] _
    (Reachable.inc [] emptyRateState "t" "c" Reachable.init)).2.2

/-! ### Registry lemmas -/

theorem evictOldest_of_lt (M : Nat) (entries : JMap FileEntry) (order : List String)
    (h : order.length < M) : evictOldest M entries order = (entries, order) := by
  rw [evictOldest.eq_def]
  dsimp only
  rw [if_neg (by omega)]

theorem evictOldest_cons_of_len_eq (M : Nat) (entries : JMap FileEntry)
    (o : String) (rest : List String) (h1 : 1 ≤ M) (h : (o :: rest).length = M) :
    evictOldest M entries (o :: rest) = (jdelete entries o, rest) := by
  rw [evictOldest.eq_def]
  dsimp only
  rw [if_pos (by omega)]
  exact evictOldest_of_lt M (jdelete entries o) rest (by simp at h; omega)

theorem evictOldest_spec (M : Nat) (h1 : 1 ≤ M) :
    ∀ (order : List String) (entries : JMap FileEntry),
      (evictOldest M entries order).2 <:+ order ∧
      ((jkeys entries).Nodup → (jkeys (evictOldest M entries order).1).Nodup) ∧
      (order.Nodup → ∀ t ∈ (evictOldest M entries order).2,
        jget (evictOldest M entries order).1 t = jget entries t) := by
  intro order
  induction order with
  | nil =>
      intro entries
      rw [evictOldest_of_lt M entries [] (by simpa using h1)]
      exact ⟨List.suffix_refl _, fun h => h, fun _ t ht => rfl⟩
  | cons o rest ih =>
      intro entries
      by_cases hM : M ≤ (o :: rest).length
      · have hstep : evictOldest M entries (o :: rest) =
            evictOldest M (jdelete entries o) rest := by
          rw [evictOldest]
          rw [if_pos hM]
        rw [hstep]
        obtain ⟨ihs, ihn, ihp⟩ := ih (jdelete entries o)
        refine ⟨ihs.trans (List.suffix_cons o rest), ?_, ?_⟩
        · intro hnd
          exact ihn (jkeys_jdelete_nodup entries o hnd)
        · intro hnd t ht
          rw [List.nodup_cons] at hnd
          have htrest : t ∈ rest := (ihs.sublist.subset) ht
          have hto : t ≠ o := fun hc => hnd.1 (hc ▸ htrest)
          rw [ihp hnd.2 t ht]
          exact jget_jdelete_ne entries o t hto
      · rw [evictOldest_of_lt M entries (o :: rest) (by omega)]
        exact ⟨List.suffix_refl _, fun h => h, fun _ t ht => rfl⟩

theorem registerAll_nil (M : Nat) (st : StoreData) : registerAll M st [] = st := rfl

theorem registerAll_cons (M : Nat) (st : StoreData) (p : String × FileEntry)
    (regs : List (String × FileEntry)) :
    registerAll M st (p :: regs) = registerAll M (registerFile M st p.1 p.2) regs := rfl

theorem mem_order_registerAll (M : Nat) (hM : 1 ≤ M) (regs : List (String × FileEntry)) :
    ∀ (st : StoreData) (t' : String), t' ∈ (registerAll M st regs).order →
      t' ∈ st.order ∨ t' ∈ regs.map Prod.fst := by
  induction regs with
  | nil =>
      intro st t' h
      exact Or.inl h
  | cons p rest ih =>
      intro st t' h
      rw [registerAll_cons] at h
      rcases ih (registerFile M st p.1 p.2) t' h with h1 | h1
      · unfold registerFile at h1
        dsimp only at h1
        rcases List.mem_append.1 h1 with h2 | h2
        · exact Or.inl ((evictOldest_spec M hM st.order st.entries).1.sublist.subset h2)
        · rw [List.mem_singleton] at h2
          exact Or.inr (h2 ▸ List.mem_cons_self _ _)
      · exact Or.inr (List.mem_cons_of_mem _ h1)

theorem registerAll_preserves (M : Nat) (hM : 1 ≤ M) (regs : List (String × FileEntry)) :
    ∀ (st : StoreData) (t0 : String) (e0 : FileEntry),
      (st.order ++ regs.map Prod.fst).Nodup →
      jget st.entries t0 = some e0 →
      t0 ∈ st.order →
      (∀ p ∈ regs, p.1 ≠ t0) →
      t0 ∈ (registerAll M st regs).order →
      getFileEntry (registerAll M st regs) t0 = some e0 := by
  induction regs with
  | nil =>
      intro st t0 e0 _ hget _ _ _
      exact hget
  | cons p rest ih =>
      intro st t0 e0 hnd hget hmem hne hfin
      rw [registerAll_cons] at hfin ⊢
      obtain ⟨hsuf, -, hpres⟩ := evictOldest_spec M hM st.order st.entries
      have hndo : st.order.Nodup := (List.nodup_append.1 hnd).1
      have hpt0 : p.1 ≠ t0 := hne p (List.mem_cons_self _ _)
      -- where t0 sits after this registration
      have ht1 : t0 ∈ (registerFile M st p.1 p.2).order := by
        rcases mem_order_registerAll M hM rest _ t0 hfin with h1 | h1
        · exact h1
        · exfalso
          obtain ⟨q, hq, hq1⟩ := List.mem_map.1 h1
          exact hne q (List.mem_cons_of_mem _ hq) hq1
      have ht1e : t0 ∈ (evictOldest M st.entries st.order).2 := by
        unfold registerFile at ht1
        dsimp only at ht1
        rcases List.mem_append.1 ht1 with h2 | h2
        · exact h2
        · rw [List.mem_singleton] at h2
          exact absurd h2.symm hpt0
      have hget1 : jget (registerFile M st p.1 p.2).entries t0 = some e0 := by
        unfold registerFile
        dsimp only
        rw [jget_jset_ne _ _ _ _ (fun hc => hpt0 hc.symm)]
        rw [hpres hndo t0 ht1e]
        exact hget
      refine ih (registerFile M st p.1 p.2) t0 e0 ?_ hget1 ht1 ?_ hfin
      · unfold registerFile
        dsimp only
        have hsub : List.Sublist
            ((evictOldest M st.entries st.order).2 ++ [p.1] ++ rest.map Prod.fst)
            (st.order ++ [p.1] ++ rest.map Prod.fst) :=
          (hsuf.sublist.append_right [p.1]).append_right (rest.map Prod.fst)
        refine hsub.nodup ?_
        have : st.order ++ [p.1] ++ rest.map Prod.fst =
            st.order ++ (p.1 :: rest.map Prod.fst) := by
          simp
        rw [this]
        simpa using hnd
      · intro q hq
        exact hne q (List.mem_cons_of_mem _ hq)

theorem registerAll_no_evict (M : Nat) (hM : 1 ≤ M) (regs : List (String × FileEntry)) :
    ∀ st : StoreData, st.order.length + regs.length ≤ M →
      (registerAll M st regs).order = st.order ++ regs.map Prod.fst ∧
      (∀ t0 : String, (∀ p ∈ regs, p.1 ≠ t0) →
        jget (registerAll M st regs).entries t0 = jget st.entries t0) ∧
      ((jkeys st.entries).Nodup → (jkeys (registerAll M st regs).entries).Nodup) := by
  induction regs with
  | nil =>
      intro st _
      exact ⟨by simp [registerAll_nil], fun t0 _ => rfl, fun h => h⟩
  | cons p rest ih =>
      intro st hlen
      rw [registerAll_cons]
      have hlt : st.order.length < M := by
        simp at hlen
        omega
      have hstep : registerFile M st p.1 p.2 =
          ⟨jset st.entries p.1 p.2, st.order ++ [p.1]⟩ := by
        unfold registerFile
        rw [evictOldest_of_lt M st.entries st.order hlt]
      rw [hstep]
      have hlen1 : (st.order ++ [p.1]).length + rest.length ≤ M := by
        simp at hlen ⊢
        omega
      obtain ⟨ih1, ih2, ih3⟩ :=
        ih ⟨jset st.entries p.1 p.2, st.order ++ [p.1]⟩ hlen1
      refine ⟨?_, ?_, ?_⟩
      · rw [ih1]
        simp
      · intro t0 hne
        rw [ih2 t0 (fun q hq => hne q (List.mem_cons_of_mem _ hq))]
        exact jget_jset_ne _ _ _ _ (fun hc => hne p (List.mem_cons_self _ _) hc.symm)
      · intro hnd
        exact ih3 (jkeys_jset_nodup _ _ _ hnd)

/-- Claim C6: resolving the token returned by `registerFile` yields the
registered entry for as long as later registrations (with fresh, distinct
tokens) have not evicted it; and after `maxEntries + 1` distinct
registrations starting from the empty registry, the first-registered token
resolves to `NotFound` (`none`) while the registry size stays at most
`maxEntries`. -/
theorem registry_register_resolve (M : Nat) (hM : 1 ≤ M) (t0 : String)
    (e0 : FileEntry) (regs : List (String × FileEntry)) :
    (∀ st : StoreData,
      (st.order ++ t0 :: regs.map Prod.fst).Nodup →
      t0 ∈ (registerAll M (registerFile M st t0 e0) regs).order →
      getFileEntry (registerAll M (registerFile M st t0 e0) regs) t0 = some e0) ∧
    ((t0 :: regs.map Prod.fst).Nodup → regs.length = M →
      getFileEntry (registerAll M (registerFile M emptyStore t0 e0) regs) t0 = none ∧
      (registerAll M (registerFile M emptyStore t0 e0) regs).order.length ≤ M) := by
  constructor
  · intro st hnd hfin
    obtain ⟨hsuf, -, -⟩ := evictOldest_spec M hM st.order st.entries
    have ht0fresh : t0 ∉ regs.map Prod.fst := by
      have h2 := (List.nodup_append.1 hnd).2.1
      rw [List.nodup_cons] at h2
      exact h2.1
    refine registerAll_preserves M hM regs (registerFile M st t0 e0) t0 e0
      ?_ ?_ ?_ ?_ hfin
    · show ((evictOldest M st.entries st.order).2 ++ [t0] ++ regs.map Prod.fst).Nodup
      have hsub := (hsuf.sublist.append_right [t0]).append_right (regs.map Prod.fst)
      refine hsub.nodup ?_
      have heq : st.order ++ [t0] ++ regs.map Prod.fst =
          st.order ++ (t0 :: regs.map Prod.fst) := by
        simp
      rw [heq]
      exact hnd
    · exact jget_jset_self _ _ _
    · show t0 ∈ (evictOldest M st.entries st.order).2 ++ [t0]
      exact List.mem_append.2 (Or.inr (by simp))
    · intro q hq hc
      exact ht0fresh (hc ▸ List.mem_map_of_mem Prod.fst hq)
  · intro hnd hlenM
    rcases List.eq_nil_or_concat regs with rfl | ⟨init, lst, rfl⟩
    · simp at hlenM
      omega
    · simp only [List.concat_eq_append] at hnd hlenM ⊢
      have hinitlen : init.length + 1 = M := by
        simpa using hlenM
      have hst1 : registerFile M emptyStore t0 e0 = ⟨[(t0, e0)], [t0]⟩ := by
        unfold registerFile
        rw [evictOldest_of_lt M _ _ (by simpa using hM)]
        rfl
      rw [hst1]
      have hsplit : registerAll M (⟨[(t0, e0)], [t0]⟩ : StoreData) (init ++ [lst]) =
          registerFile M (registerAll M ⟨[(t0, e0)], [t0]⟩ init) lst.1 lst.2 := by
        unfold registerAll
        rw [List.foldl_append]
        rfl
      rw [hsplit]
      rw [List.nodup_cons, List.map_append] at hnd
      obtain ⟨ht0out, -⟩ := hnd
      have ht0init : ∀ p ∈ init, p.1 ≠ t0 := by
        intro q hq hc
        exact ht0out (List.mem_append.2 (Or.inl (hc ▸ List.mem_map_of_mem Prod.fst hq)))
      have ht0lst : lst.1 ≠ t0 := by
        intro hc
        exact ht0out (List.mem_append.2 (Or.inr (by simp [hc])))
      obtain ⟨ho, hp, hkn⟩ :=
        registerAll_no_evict M hM init ⟨[(t0, e0)], [t0]⟩ (by simp; omega)
      have hordr : (registerAll M (⟨[(t0, e0)], [t0]⟩ : StoreData) init).order =
          t0 :: init.map Prod.fst := by
        simpa using ho
      have hlen2 : (t0 :: init.map Prod.fst).length = M := by
        simp
        omega
      have hget : jget (registerAll M (⟨[(t0, e0)], [t0]⟩ : StoreData) init).entries t0 =
          some e0 := by
        rw [hp t0 ht0init]
        exact jget_jset_self [] t0 e0
      have hkeys : (jkeys (registerAll M (⟨[(t0, e0)], [t0]⟩ : StoreData) init).entries).Nodup := by
        refine hkn ?_
        simp [jkeys]
      constructor
      · show jget (registerFile M (registerAll M ⟨[(t0, e0)], [t0]⟩ init) lst.1 lst.2).entries
            t0 = none
        unfold registerFile
        dsimp only
        rw [hordr, evictOldest_cons_of_len_eq M _ t0 (init.map Prod.fst) hM hlen2]
        dsimp only
        rw [jget_jset_ne _ _ _ _ (Ne.symm ht0lst)]
        exact jget_jdelete_self _ t0 hkeys
      · show (registerFile M (registerAll M ⟨[(t0, e0)], [t0]⟩ init) lst.1 lst.2).order.length
            ≤ M
        unfold registerFile
        dsimp only
        rw [hordr, evictOldest_cons_of_len_eq M _ t0 (init.map Prod.fst) hM hlen2]
        simp
        omega

/-- Witness for C6: capacity 1; registering `b` after `a` evicts `a`, which
then resolves to `none` while the registry size stays at 1. -/
theorem registry_register_resolve_witness :
    getFileEntry
        (registerAll 1 (registerFile 1 emptyStore "a" ⟨"fid", "name", 5, "video/mp4"⟩)
          [("b", ⟨"fid2", "name2", 6, "video/mp4"⟩)]) "a" = none ∧
    (registerAll 1 (registerFile 1 emptyStore "a" ⟨"fid", "name", 5, "video/mp4"⟩)
          [("b", ⟨"fid2", "name2", 6, "video/mp4"⟩)]).order.length ≤ 1 :=
  (registry_register_resolve 1 (by decide) "a" ⟨"fid", "name", 5, "video/mp4"⟩
    [("b", ⟨"fid2", "name2", 6, "video/mp4"⟩)]).2 (by decide) (by decide)

end TgStreamer
